import Mathlib

/-!
Verification of `teacher-changes.py`: a script that snapshots the set of
instructors per Canvas course, diffs the current snapshot against the
previously saved one, and records each addition/removal.

The embedding models:
* Python string operations (`split`, `in`, `strip`, slicing at `;`) on
  `List Char`, and `get_next_link` on top of them;
* the paginated HTTP fetch loops (`fetch_courses`,
  `fetch_instructors_for_course`) with an explicit server function, fuel for
  the `while` loop, and `Option` for raised exceptions;
* the snapshot store (`save_teachers_list` / `load_teachers_list`), with the
  JSON file round trip modelled as identity on the structured value and
  Python's set→list enumeration as an explicit parameter;
* the diff (`compare_teachers`) as the list of rows inserted into the
  `teacher_changes` table, in emission order;
* `main` as a state transformer on the world (snapshot file + table rows).
-/

namespace TeacherChanges

/-! ### Python string primitives on `List Char` -/

/-- Python `s.split(sep)` for a one-character separator: splits at every
occurrence of `sep`; `"".split(sep) = [""]`. -/
def pySplit (sep : Char) : List Char → List (List Char)
  | [] => [[]]
  | c :: cs =>
    if c = sep then [] :: pySplit sep cs
    else
      match pySplit sep cs with
      | [] => [[c]]
      | g :: gs => (c :: g) :: gs

/-- Python `pat in s` (substring containment). -/
def containsSub (s pat : List Char) : Bool :=
  match s with
  | [] => pat.isEmpty
  | _ :: rest => pat.isPrefixOf s || containsSub rest pat

/-- Python `s.strip(bad)`: removes every leading and trailing character that
belongs to `bad`. -/
def pyStrip (bad : List Char) (s : List Char) : List Char :=
  ((s.dropWhile (fun c => bad.contains c)).reverse.dropWhile
    (fun c => bad.contains c)).reverse

/-- The literal substring `rel="next"` that `get_next_link` searches for. -/
def relNextPat : List Char := ['r', 'e', 'l', '=', '"', 'n', 'e', 'x', 't', '"']

/-- `link.split(';')[0].strip('<>')`: the URL extraction applied to the
matched entry of the Link header. -/
def extractUrl (link : List Char) : List Char :=
  pyStrip ['<', '>'] (link.takeWhile (fun c => !(c = ';')))

/-- The `for link in links` loop of `get_next_link`: returns the processed
first entry containing `rel="next"`. -/
def findNextLink (links : List (List Char)) : Option (List Char) :=
  match links.find? (fun l => containsSub l relNextPat) with
  | some l => some (extractUrl l)
  | none => none

/-- `get_next_link` on the character-list model of the Link header.
`none` models an absent header; the empty string is falsy in Python, so it
also yields `none`. -/
def get_next_link_chars (link_header : Option (List Char)) : Option (List Char) :=
  match link_header with
  | none => none
  | some h =>
    if h = [] then none
    else findNextLink (pySplit ',' h)

/-- `get_next_link` on `String`s, as used by the pagination loops. -/
def get_next_link (link_header : Option String) : Option String :=
  (get_next_link_chars (link_header.map String.data)).map (fun cs => ⟨cs⟩)

/-! ### HTTP layer -/

/-- Python values that reach the `requests.get` boundary in this script: the
headers dictionary `{'Authorization': 'Bearer …'}` built from the API token,
or the integer course id from the Canvas course object. -/
inductive PyVal where
  | headerDict (token : String)
  | intVal (n : Nat)
deriving DecidableEq

/-- Python `f"{v}"` applied to such a value. -/
def pyStr : PyVal → String
  | .headerDict token => "\x7b'Authorization': 'Bearer " ++ token ++ "'\x7d"
  | .intVal n => toString n

/-- One HTTP response page: the decoded JSON body and the `Link` header. -/
structure Page (α : Type) where
  body : List α
  link : Option String
deriving DecidableEq

/-- `requests.get(url, headers=headers).raise_for_status()` followed by
`.json()`: the server function returns `none` for a transport error or a
non-success status (which `raise_for_status` turns into an exception), and
`requests` itself raises a `ValueError` when the `headers` argument is not a
mapping, before any request is sent. `none` models the raised exception. -/
def requests_get {α : Type} (server : String → Option (Page α)) (url : String)
    (headers : PyVal) : Option (Page α) :=
  match headers with
  | .headerDict _ => server url
  | _ => none

/-- The `while endpoint:` pagination loop shared by `fetch_courses` and
`fetch_instructors_for_course`: follow `rel="next"` links, concatenating the
bodies. `fuel` bounds the number of iterations (the Python loop may diverge
on a cyclic server); `none` models an uncaught exception or exhausted fuel.
Python's truthiness makes both `None` and the empty string terminate the
loop. -/
def fetch_pages {α : Type} (server : String → Option (Page α)) (headers : PyVal) :
    Nat → Option String → Option (List α)
  | _, none => some []
  | 0, some u => if u = "" then some [] else none
  | fuel + 1, some u =>
    if u = "" then some []
    else
      match requests_get server u headers with
      | none => none
      | some page =>
        match fetch_pages server headers fuel (get_next_link page.link) with
        | none => none
        | some rest => some (page.body ++ rest)

/-- `fetch_courses(headers, courses_endpoint, courses_params)`: fetch all
courses with pagination (the query parameters are folded into `server`). -/
def fetch_courses {α : Type} (server : String → Option (Page α)) (headers : PyVal)
    (courses_endpoint : String) (fuel : Nat) : Option (List α) :=
  fetch_pages server headers fuel (some courses_endpoint)

/-- `API_URL` from the script's configuration block. -/
def API_URL : String := "https://calstatela.instructure.com/api/v1"

/-- `ENROLLMENT_TERM_ID = '335'`. -/
def ENROLLMENT_TERM_ID : String := "335"

/-- `ACCOUNT_ID = '1'`. -/
def ACCOUNT_ID : String := "1"

/-- A Canvas course object as consumed by the script: `course['id']` and
`course['name']`. -/
structure Course where
  id : Nat
  name : String
deriving DecidableEq

/-- A Canvas user object as consumed by the script: `instructor['name']`. -/
structure User where
  name : String
deriving DecidableEq

/-- `f"{API_URL}/courses/{course_id}/users"`. -/
def instructorsEndpoint (course_id : PyVal) : String :=
  API_URL ++ "/courses/" ++ pyStr course_id ++ "/users"

/-- `fetch_instructors_for_course(headers, course_id)`: fetch all users with
the teacher role for a course, with pagination, and collect the set of their
names (`{instructor['name'] for instructor in instructors}`); the set is
represented by the deduplicated name list. -/
def fetch_instructors_for_course (server : String → Option (Page User))
    (fuel : Nat) (headers course_id : PyVal) : Option (List String) :=
  (fetch_pages server headers fuel (some (instructorsEndpoint course_id))).map
    (fun instructors => (instructors.map User.name).dedup)

/-- `fetch_instructors_for_single_course(course, headers)`: reads
`course_id = course['id']` and calls
`fetch_instructors_for_course(course_id, headers)` — so the course id is the
first actual argument (the `headers` parameter) and the headers dictionary is
the second (the `course_id` parameter) — then pairs the result with
`course['name']`. -/
def fetch_instructors_for_single_course (server : String → Option (Page User))
    (fuel : Nat) (course : Course) (headers : PyVal) : Option (String × List String) :=
  (fetch_instructors_for_course server fuel (.intVal course.id) headers).map
    (fun instructors => (course.name, instructors))

/-! ### Snapshots (Python dicts keyed by course name) -/

/-- The in-memory `teachers` value: a Python dict from course name to the set
of instructor names, in insertion order. The inner list stands for a Python
set through its iteration order; dict invariant: keys are distinct. -/
abbrev Teachers := List (String × List String)

/-- Python `d.get(k, set())` (and `d[k]` on a dict with distinct keys). -/
def dictGetD (m : Teachers) (k : String) : List String :=
  match m.find? (fun p => p.1 = k) with
  | some p => p.2
  | none => []

/-- Python `d[k] = v`: overwrite in place if present, else append. -/
def dictInsert (m : Teachers) (k : String) (v : List String) : Teachers :=
  if (m.find? (fun p => p.1 = k)).isSome then
    m.map (fun p => if p.1 = k then (k, v) else p)
  else m ++ [(k, v)]

/-- `f"{API_URL}/accounts/{ACCOUNT_ID}/courses"`. -/
def coursesEndpoint : String := API_URL ++ "/accounts/" ++ ACCOUNT_ID ++ "/courses"

/-- The result-collection loop of `fetch_current_teachers`: for each course,
`fetch_instructors_for_course(headers, course['id'])`, then
`teachers[course['name']] = teacher_names`. `future.result()` re-raises any
exception of a worker, so one failing course fails the whole aggregation. -/
def collectTeachers (server : String → Option (Page User)) (fuel : Nat)
    (headers : PyVal) : List Course → Teachers → Option Teachers
  | [], acc => some acc
  | c :: cs, acc =>
    match fetch_instructors_for_course server fuel headers (.intVal c.id) with
    | none => none
    | some teacher_names => collectTeachers server fuel headers cs (dictInsert acc c.name teacher_names)

/-- `fetch_current_teachers()`: fetch the course list, then the instructor
set of every course, and assemble the snapshot dict. The thread pool's
completion order is modelled by list order (the dict contents do not depend
on it). -/
def fetch_current_teachers (courseServer : String → Option (Page Course))
    (instrServer : String → Option (Page User)) (fuel : Nat) (apiKey : String) :
    Option Teachers :=
  let headers := PyVal.headerDict apiKey
  match fetch_courses courseServer headers coursesEndpoint fuel with
  | none => none
  | some courses => collectTeachers instrServer fuel headers courses []

/-! ### Snapshot store -/

/-- `save_teachers_list(teachers)`: convert each set to a list and dump the
dict as JSON. `enum` is Python's `list(set)` enumeration (an unspecified
ordering of the set's elements); the JSON encode/decode round trip is
modelled as identity on the structured value. -/
def save_teachers_list (enum : List String → List String) (teachers : Teachers) :
    List (String × List String) :=
  teachers.map (fun p => (p.1, enum p.2))

/-- `load_teachers_list()`: `None` when the file does not exist, otherwise
the parsed dict with each list converted back to a set (`set(lst)`,
represented by the deduplicated list). -/
def load_teachers_list (file : Option (List (String × List String))) : Option Teachers :=
  file.map (fun l => l.map (fun p => (p.1, p.2.dedup)))

/-! ### Diff engine -/

/-- The `action` column of a `teacher_changes` row. -/
inductive Action where
  | removed
  | added
deriving DecidableEq

/-- One row inserted by `log_teacher_change`: (course_name, action, teacher). -/
abbrev ChangeRecord := String × Action × String

/-- Python set difference `a - b` on the list representation. -/
def pySetDiff (a b : List String) : List String :=
  a.filter (fun x => decide (x ∉ b))

/-- `compare_teachers(old_list, new_list, db_connection)`, as the sequence of
rows it inserts via `log_teacher_change`, in emission order: for each course
of the new dict, first the removed teachers, then the added ones. -/
def compare_teachers (old_list new_list : Teachers) : List ChangeRecord :=
  new_list.flatMap (fun ct =>
    let old_teachers := dictGetD old_list ct.1
    ((pySetDiff old_teachers ct.2).map (fun t => (ct.1, Action.removed, t))) ++
    ((pySetDiff ct.2 old_teachers).map (fun t => (ct.1, Action.added, t))))

/-! ### main -/

/-- The durable state a run can touch: the snapshot file (`none` = absent)
and the rows of the `teacher_changes` table. -/
structure World where
  file : Option (List (String × List String))
  dbRows : List ChangeRecord
deriving DecidableEq

/-- How a run of `main()` ends: early return on a failed DB connection, an
uncaught exception out of the fetch, or normal completion. -/
inductive RunStatus where
  | dbFail
  | fetchCrash
  | ok
deriving DecidableEq

/-- Result of a run: status, final world, and whether any upstream fetch was
issued. -/
structure RunOut where
  status : RunStatus
  world : World
  fetchIssued : Bool
deriving DecidableEq

/-- `main()`: connect to the DB (early return if that fails), fetch the
current snapshot (an exception aborts the run before any write), load the
previous snapshot, diff when one exists (inserting rows as it goes), then
save the current snapshot. `dbOk` models whether `create_db_connection`
returned a connection; `enum` is the set→list enumeration used on save. -/
def run_main (dbOk : Bool) (courseServer : String → Option (Page Course))
    (instrServer : String → Option (Page User)) (fuel : Nat) (apiKey : String)
    (enum : List String → List String) (w : World) : RunOut :=
  if dbOk = false then ⟨.dbFail, w, false⟩
  else
    match fetch_current_teachers courseServer instrServer fuel apiKey with
    | none => ⟨.fetchCrash, w, true⟩
    | some current_teachers =>
      let previous_teachers := load_teachers_list w.file
      let rows :=
        match previous_teachers with
        | some old => compare_teachers old current_teachers
        | none => []
      ⟨.ok, ⟨some (save_teachers_list enum current_teachers), w.dbRows ++ rows⟩, true⟩

/-! ### Page chains -/

/-- The URL at which a fetch starting on this chain begins (`none` for the
empty chain). -/
def chainStart {α : Type} : List (String × Page α) → Option String
  | [] => none
  | (u, _) :: _ => some u

/-- A well-formed page chain for `server`: each page lives at its URL, each
page's Link header yields the next page's URL as continuation, and the last
page's header yields none. -/
def isChain {α : Type} (server : String → Option (Page α)) :
    List (String × Page α) → Prop
  | [] => True
  | (u, p) :: rest =>
    u ≠ "" ∧ server u = some p ∧ get_next_link p.link = chainStart rest ∧
      isChain server rest

/-- The URL a fetch over `chain` followed by the extra URL `u` starts at. -/
def firstUrl {α : Type} : List (String × Page α) → String → String
  | [], u => u
  | (u₀, _) :: _, _ => u₀

/-- A chain of successful pages whose last continuation points at `u`, where
the server fails. -/
def failsAt {α : Type} (server : String → Option (Page α)) :
    List (String × Page α) → String → Prop
  | [], u => u ≠ "" ∧ server u = none
  | (u₀, p₀) :: rest, u =>
    u₀ ≠ "" ∧ server u₀ = some p₀ ∧
      get_next_link p₀.link = some (firstUrl rest u) ∧ failsAt server rest u

/-! ### Helper lemmas -/

/-- Every record emitted by `compare_teachers` is for a course of the new
snapshot. -/
lemma mem_compare_imp_key {old_l new_l : Teachers} {c : String} {a : Action}
    {t : String} (h : (c, a, t) ∈ compare_teachers old_l new_l) :
    c ∈ new_l.map Prod.fst := by
  simp only [compare_teachers, List.mem_flatMap] at h
  obtain ⟨ct, hct, hmem⟩ := h
  rcases List.mem_append.1 hmem with h' | h' <;>
  · obtain ⟨t', _, ht⟩ := List.mem_map.1 h'
    cases ht
    exact List.mem_map.2 ⟨ct, hct, rfl⟩

/-- `instructorsEndpoint` is never the empty (falsy) string. -/
lemma instructorsEndpoint_ne_empty (v : PyVal) : instructorsEndpoint v ≠ "" := by
  intro hcontra
  have h1 := congrArg String.length hcontra
  simp only [instructorsEndpoint, String.length_append] at h1
  have h2 : API_URL.length = 41 := by decide
  have h3 : String.length "" = 0 := rfl
  omega

/-! ### Claims -/

/-- **C9.** If establishing the database connection fails at startup, `main`
returns early: no upstream fetch is issued, no change record is written, and
the snapshot file is unchanged. -/
theorem db_connection_failure_clean_exit (courseServer : String → Option (Page Course))
    (instrServer : String → Option (Page User)) (fuel : Nat) (apiKey : String)
    (enum : List String → List String) (w : World) :
    run_main false courseServer instrServer fuel apiKey enum w =
      ⟨.dbFail, w, false⟩ ∧
    (run_main false courseServer instrServer fuel apiKey enum w).world.file = w.file ∧
    (run_main false courseServer instrServer fuel apiKey enum w).world.dbRows = w.dbRows ∧
    (run_main false courseServer instrServer fuel apiKey enum w).fetchIssued = false :=
  ⟨rfl, rfl, rfl, rfl⟩

/-- **C7.** On a first run (no snapshot file), `load_teachers_list` returns
`none` rather than an empty mapping, the diff is never invoked (no rows are
written), and the run only seeds the baseline snapshot. -/
theorem first_run_seeds_baseline (courseServer : String → Option (Page Course))
    (instrServer : String → Option (Page User)) (fuel : Nat) (apiKey : String)
    (enum : List String → List String) (w : World) (current : Teachers)
    (hfile : w.file = none)
    (hfetch : fetch_current_teachers courseServer instrServer fuel apiKey = some current) :
    load_teachers_list w.file = none ∧
    run_main true courseServer instrServer fuel apiKey enum w =
      ⟨.ok, ⟨some (save_teachers_list enum current), w.dbRows⟩, true⟩ := by
  refine ⟨by rw [hfile]; rfl, ?_⟩
  simp [run_main, hfetch, hfile, load_teachers_list]

/-- **C2.** A course present in the old snapshot but absent from the new one
contributes no change record at all, even when its old instructor set is
non-empty. -/
theorem dropped_course_no_records (old_l new_l : Teachers) (c : String)
    (_hc : c ∈ old_l.map Prod.fst) (hn : c ∉ new_l.map Prod.fst) :
    ∀ a t, (c, a, t) ∉ compare_teachers old_l new_l := by
  intro a t h
  exact hn (mem_compare_imp_key h)

/-- Witness for C2 at a concrete input. -/
theorem dropped_course_no_records_witness :
    ("A", Action.removed, "x") ∉ compare_teachers [("A", ["x"])] [("B", ["y"])] :=
  dropped_course_no_records [("A", ["x"])] [("B", ["y"])] "A" (by decide) (by decide)
    Action.removed "x"

/-- Witness for C7 at a concrete input: a server with an empty course list,
fuel 1, an absent snapshot file. -/
theorem first_run_seeds_baseline_witness :
    load_teachers_list (none : Option (List (String × List String))) = none ∧
    run_main true (fun _ => some ⟨([] : List Course), none⟩) (fun _ => none) 1 "k"
      (fun l => l) ⟨none, []⟩ =
      ⟨.ok, ⟨some (save_teachers_list (fun l => l) []), []⟩, true⟩ :=
  first_run_seeds_baseline (fun _ => some ⟨([] : List Course), none⟩) (fun _ => none)
    1 "k" (fun l => l) ⟨none, []⟩ [] rfl (by decide)

/-- **C10.** `fetch_instructors_for_single_course` passes the course id where
`fetch_instructors_for_course` expects the headers and the headers where it
expects the course id; `requests.get` rejects a non-mapping headers argument,
so the swapped call raises on every input — in particular, whenever the
correctly ordered call `fetch_instructors_for_course(headers, course_id)`
would succeed and return an instructor set, the swapped wrapper still fails
and never returns the `(course name, instructor set)` pair its docstring
describes. -/
theorem fetch_single_course_swapped_args (server : String → Option (Page User))
    (fuel : Nat) (course : Course) (token : String) (ins : List String)
    (_hok : fetch_instructors_for_course server fuel (.headerDict token)
      (.intVal course.id) = some ins) :
    fetch_instructors_for_single_course server fuel course (.headerDict token) = none ∧
    fetch_instructors_for_single_course server fuel course (.headerDict token) ≠
      some (course.name, ins) := by
  have hnone : fetch_instructors_for_single_course server fuel course
      (.headerDict token) = none := by
    have hp : fetch_pages server (.intVal course.id) fuel
        (some (instructorsEndpoint (.headerDict token))) = none := by
      cases fuel with
      | zero =>
        simp [fetch_pages, if_neg (instructorsEndpoint_ne_empty (.headerDict token))]
      | succ f =>
        simp [fetch_pages, if_neg (instructorsEndpoint_ne_empty (.headerDict token)),
          requests_get]
    simp [fetch_instructors_for_single_course, fetch_instructors_for_course, hp]
  exact ⟨hnone, by rw [hnone]; exact fun h => Option.noConfusion h⟩

/-- Witness for C10: a server on which the correctly ordered call succeeds
(one page, one instructor). -/
theorem fetch_single_course_swapped_args_witness :
    fetch_instructors_for_single_course (fun _ => some ⟨[⟨"Alice"⟩], none⟩) 1
      ⟨7, "CS101"⟩ (.headerDict "t") = none ∧
    fetch_instructors_for_single_course (fun _ => some ⟨[⟨"Alice"⟩], none⟩) 1
      ⟨7, "CS101"⟩ (.headerDict "t") ≠ some ("CS101", ["Alice"]) :=
  fetch_single_course_swapped_args (fun _ => some ⟨[⟨"Alice"⟩], none⟩) 1
    ⟨7, "CS101"⟩ "t" ["Alice"] (by decide)

/-- Deduplication does not change a list seen as a set. -/
lemma toFinset_dedup_eq (l : List String) : l.dedup.toFinset = l.toFinset := by
  ext a
  simp [List.mem_dedup]

/-- Looking up a key after transforming every value with `g` gives the
transformed value (or the empty default on a missing key, for any `g` with
`g [] = []`-like use sites we avoid by casing). -/
lemma dictGetD_mapVals_toFinset (g : List String → List String)
    (hg : ∀ l, (g l).toFinset = l.toFinset) (m : Teachers) (c : String) :
    (dictGetD (m.map (fun p => (p.1, g p.2))) c).toFinset =
      (dictGetD m c).toFinset := by
  induction m with
  | nil => rfl
  | cons hd tl ih =>
    by_cases hc : hd.1 = c
    · simp [dictGetD, List.find?_cons, hc, hg]
    · simpa [dictGetD, List.find?_cons, hc] using ih

/-- **C3.** Saving then loading a snapshot returns a snapshot with exactly
the same course keys, and per course the same instructor set, whatever order
the serializer enumerated each set in (`enum` ranges over all enumerations
that preserve the set of elements). -/
theorem save_load_roundtrip (S : Teachers) (enum : List String → List String)
    (henum : ∀ l : List String, (enum l).toFinset = l.toFinset) :
    ∃ T, load_teachers_list (some (save_teachers_list enum S)) = some T ∧
      T.map Prod.fst = S.map Prod.fst ∧
      ∀ c, (dictGetD T c).toFinset = (dictGetD S c).toFinset := by
  refine ⟨S.map (fun p => (p.1, (enum p.2).dedup)), ?_, ?_, ?_⟩
  · simp [load_teachers_list, save_teachers_list, List.map_map]
  · simp [List.map_map]
  · intro c
    have hg : ∀ l : List String, ((enum l).dedup).toFinset = l.toFinset := by
      intro l
      rw [toFinset_dedup_eq, henum]
    exact dictGetD_mapVals_toFinset (fun l => (enum l).dedup) hg S c

/-- Witness for C3: a two-teacher snapshot serialized in reversed order. -/
theorem save_load_roundtrip_witness :
    ∃ T, load_teachers_list (some (save_teachers_list List.reverse
        [("CS101", ["Alice", "Bob"])])) = some T ∧
      T.map Prod.fst = [("CS101", ["Alice", "Bob"])].map Prod.fst ∧
      ∀ c, (dictGetD T c).toFinset =
        (dictGetD [("CS101", ["Alice", "Bob"])] c).toFinset :=
  save_load_roundtrip [("CS101", ["Alice", "Bob"])] List.reverse
    (fun l => by simp)

/-- The pagination loop over a well-formed chain returns the concatenation of
all pages' bodies, in page order, given enough fuel. -/
lemma fetch_pages_of_chain {α : Type} (server : String → Option (Page α))
    (token : String) :
    ∀ (chain : List (String × Page α)) (fuel : Nat), isChain server chain →
      chain.length ≤ fuel →
      fetch_pages server (.headerDict token) fuel (chainStart chain) =
        some (chain.flatMap (fun x => x.2.body)) := by
  intro chain
  induction chain with
  | nil =>
    intro fuel _ _
    cases fuel <;> rfl
  | cons hd tl ih =>
    obtain ⟨u, p⟩ := hd
    intro fuel hch hlen
    obtain ⟨hu, hs, hnext, hrest⟩ := hch
    cases fuel with
    | zero => simp at hlen
    | succ f =>
      have hlen' : tl.length ≤ f := by simpa using hlen
      have hrec := ih f hrest hlen'
      simp [fetch_pages, if_neg hu, requests_get, hs, hnext, hrec]

/-- **C4.** For every finite chain of pages in which each page's Link header
yields its successor's URL and the last page's yields none, the paginated
fetch returns the concatenation of all pages' items in page order (so for a
single page with no continuation it returns exactly that page's items, and
items occurring on several pages are not de-duplicated). -/
theorem fetch_courses_concatenates_pages {α : Type}
    (server : String → Option (Page α)) (token u : String) (p : Page α)
    (rest : List (String × Page α)) (fuel : Nat)
    (hch : isChain server ((u, p) :: rest))
    (hfuel : ((u, p) :: rest).length ≤ fuel) :
    fetch_courses server (.headerDict token) u fuel =
      some (((u, p) :: rest).flatMap (fun x => x.2.body)) :=
  fetch_pages_of_chain server token ((u, p) :: rest) fuel hch hfuel

/-- Witness for C4: two pages joined by a real `rel="next"` Link header, with
an item `"b"` occurring on both pages and surviving twice. -/
theorem fetch_courses_concatenates_pages_witness :
    fetch_courses
      (fun url => if url = "p1" then some ⟨["a", "b"], some "<p2>; rel=\"next\""⟩
        else if url = "p2" then some ⟨["b", "c"], none⟩ else none)
      (.headerDict "t") "p1" 2 = some ["a", "b", "b", "c"] :=
  fetch_courses_concatenates_pages
    (fun url => if url = "p1" then some ⟨["a", "b"], some "<p2>; rel=\"next\""⟩
      else if url = "p2" then some ⟨["b", "c"], none⟩ else none)
    "t" "p1" ⟨["a", "b"], some "<p2>; rel=\"next\""⟩ [("p2", ⟨["b", "c"], none⟩)] 2
    ⟨by decide, by decide, by decide, by decide, by decide, by decide, trivial⟩
    (by decide)

/-- Reaching a failing page request makes the whole pagination loop fail. -/
lemma fetch_pages_failsAt {α : Type} (server : String → Option (Page α))
    (token : String) :
    ∀ (chain : List (String × Page α)) (u : String) (fuel : Nat),
      failsAt server chain u → chain.length < fuel →
      fetch_pages server (.headerDict token) fuel (some (firstUrl chain u)) = none := by
  intro chain
  induction chain with
  | nil =>
    intro u fuel hf hfuel
    obtain ⟨hu, hs⟩ := hf
    cases fuel with
    | zero => omega
    | succ f => simp [fetch_pages, firstUrl, if_neg hu, requests_get, hs]
  | cons hd tl ih =>
    obtain ⟨u₀, p₀⟩ := hd
    intro u fuel hf hfuel
    obtain ⟨hu₀, hs₀, hnext, hrest⟩ := hf
    cases fuel with
    | zero => omega
    | succ f =>
      have hrec := ih u f hrest (by simpa using hfuel)
      have hstep : firstUrl ((u₀, p₀) :: tl) u = u₀ := rfl
      simp [fetch_pages, hstep, if_neg hu₀, requests_get, hs₀, hnext, hrec]

/-- A failing instructor fetch for any listed course fails the whole
result-collection loop. -/
lemma collectTeachers_fails (server : String → Option (Page User)) (fuel : Nat)
    (headers : PyVal) :
    ∀ (courses : List Course) (c : Course) (acc : Teachers), c ∈ courses →
      fetch_instructors_for_course server fuel headers (.intVal c.id) = none →
      collectTeachers server fuel headers courses acc = none := by
  intro courses
  induction courses with
  | nil => intro c acc hc; cases hc
  | cons c₀ cs ih =>
    intro c acc hc hnone
    rcases List.mem_cons.1 hc with rfl | hc'
    · simp [collectTeachers, hnone]
    · cases hcase : fetch_instructors_for_course server fuel headers (.intVal c₀.id) with
      | none => simp [collectTeachers, hcase]
      | some ts => simp [collectTeachers, hcase, ih c _ hc' hnone]

/-- **C6.** Failures propagate: a failing page request anywhere in a
paginated fetch fails the whole fetch (no partial item list); a failing
per-course instructor fetch fails the whole aggregation (no partial
snapshot); and a failed aggregation aborts the run with the snapshot file and
the `teacher_changes` rows untouched, the diff never attempted. -/
theorem fetch_failure_aborts_run :
    (∀ (α : Type) (server : String → Option (Page α)) (token : String)
       (chain : List (String × Page α)) (u : String) (fuel : Nat),
       failsAt server chain u → chain.length < fuel →
       fetch_pages server (.headerDict token) fuel (some (firstUrl chain u)) = none) ∧
    (∀ (courseServer : String → Option (Page Course))
       (instrServer : String → Option (Page User)) (fuel : Nat) (apiKey : String)
       (courses : List Course) (c : Course),
       fetch_courses courseServer (.headerDict apiKey) coursesEndpoint fuel =
         some courses →
       c ∈ courses →
       fetch_instructors_for_course instrServer fuel (.headerDict apiKey)
         (.intVal c.id) = none →
       fetch_current_teachers courseServer instrServer fuel apiKey = none) ∧
    (∀ (courseServer : String → Option (Page Course))
       (instrServer : String → Option (Page User)) (fuel : Nat) (apiKey : String)
       (enum : List String → List String) (w : World),
       fetch_current_teachers courseServer instrServer fuel apiKey = none →
       run_main true courseServer instrServer fuel apiKey enum w =
         ⟨.fetchCrash, w, true⟩) := by
  refine ⟨fun α server token chain u fuel hf hfuel =>
    fetch_pages_failsAt server token chain u fuel hf hfuel, ?_, ?_⟩
  · intro courseServer instrServer fuel apiKey courses c hcourses hc hnone
    simp [fetch_current_teachers, hcourses,
      collectTeachers_fails instrServer fuel (.headerDict apiKey) courses c [] hc hnone]
  · intro courseServer instrServer fuel apiKey enum w hnone
    simp [run_main, hnone]

/-- Witness for C6: a server that always fails, a one-course catalogue whose
instructor requests fail, and the resulting aborted run. -/
theorem fetch_failure_aborts_run_witness :
    fetch_pages (fun _ => (none : Option (Page String))) (.headerDict "t") 1
      (some (firstUrl ([] : List (String × Page String)) "x")) = none ∧
    fetch_current_teachers (fun _ => some ⟨[⟨1, "CS101"⟩], none⟩) (fun _ => none)
      1 "k" = none ∧
    run_main true (fun _ => some ⟨[⟨1, "CS101"⟩], none⟩) (fun _ => none) 1 "k"
      (fun l => l) ⟨none, []⟩ = ⟨.fetchCrash, ⟨none, []⟩, true⟩ :=
  ⟨fetch_failure_aborts_run.1 String (fun _ => none) "t" [] "x" 1
      ⟨by decide, rfl⟩ (by decide),
   fetch_failure_aborts_run.2.1 (fun _ => some ⟨[⟨1, "CS101"⟩], none⟩)
      (fun _ => none) 1 "k" [⟨1, "CS101"⟩] ⟨1, "CS101"⟩ (by decide) (by decide)
      (by decide),
   fetch_failure_aborts_run.2.2 (fun _ => some ⟨[⟨1, "CS101"⟩], none⟩)
      (fun _ => none) 1 "k" (fun l => l) ⟨none, []⟩ (by decide)⟩

/-- Dict lookup on a cons cell. -/
lemma dictGetD_cons (c₀ : String) (ts₀ : List String) (tl : Teachers) (c : String) :
    dictGetD ((c₀, ts₀) :: tl) c = if c₀ = c then ts₀ else dictGetD tl c := by
  by_cases h : c₀ = c <;> simp [dictGetD, List.find?_cons, h]

/-- Membership in a Python set difference. -/
lemma mem_pySetDiff {a b : List String} {t : String} :
    t ∈ pySetDiff a b ↔ t ∈ a ∧ t ∉ b := by
  simp [pySetDiff]

/-- Membership characterization of the records of `compare_teachers`, for new
snapshots with distinct course keys: a `removed` record for `(c, t)` occurs
iff `c` is a course of the new snapshot, `t` is in the old set and not in the
new set; an `added` record occurs iff `t` is in the new set and not in the
old set. -/
lemma compare_mem_iff (old_l : Teachers) :
    ∀ new_l : Teachers, (new_l.map Prod.fst).Nodup → ∀ c t,
      (((c, Action.removed, t) ∈ compare_teachers old_l new_l) ↔
        (c ∈ new_l.map Prod.fst ∧ t ∈ dictGetD old_l c ∧ t ∉ dictGetD new_l c)) ∧
      (((c, Action.added, t) ∈ compare_teachers old_l new_l) ↔
        (t ∈ dictGetD new_l c ∧ t ∉ dictGetD old_l c)) := by
  intro new_l
  induction new_l with
  | nil =>
    intro _ c t
    constructor <;> simp [compare_teachers, dictGetD]
  | cons hd tl ih =>
    intro hnodup c t
    obtain ⟨c₀, ts₀⟩ := hd
    rw [List.map_cons, List.nodup_cons] at hnodup
    obtain ⟨hc₀, htl⟩ := hnodup
    have IH := ih htl c t
    have hsplit : ∀ a : Action, ((c, a, t) ∈ compare_teachers old_l ((c₀, ts₀) :: tl)) ↔
        ((c₀ = c ∧ Action.removed = a ∧ t ∈ dictGetD old_l c₀ ∧ t ∉ ts₀) ∨
         (c₀ = c ∧ Action.added = a ∧ t ∈ ts₀ ∧ t ∉ dictGetD old_l c₀) ∨
         ((c, a, t) ∈ compare_teachers old_l tl)) := by
      intro a
      simp only [compare_teachers, List.flatMap_cons, List.mem_append]
      constructor
      · rintro ((hb' | hb') | hr)
        · obtain ⟨x, hx, hx2⟩ := List.mem_map.1 hb'
          obtain ⟨hx3, hx4⟩ := mem_pySetDiff.1 hx
          injection hx2 with h1 h2
          injection h2 with h2 h3
          exact Or.inl ⟨h1, h2, h3 ▸ hx3, h3 ▸ hx4⟩
        · obtain ⟨x, hx, hx2⟩ := List.mem_map.1 hb'
          obtain ⟨hx3, hx4⟩ := mem_pySetDiff.1 hx
          injection hx2 with h1 h2
          injection h2 with h2 h3
          exact Or.inr (Or.inl ⟨h1, h2, h3 ▸ hx3, h3 ▸ hx4⟩)
        · exact Or.inr (Or.inr hr)
      · rintro (⟨h1, h2, h3, h4⟩ | ⟨h1, h2, h3, h4⟩ | hr)
        · subst h1; subst h2
          exact Or.inl (Or.inl (List.mem_map.2 ⟨t, mem_pySetDiff.2 ⟨h3, h4⟩, rfl⟩))
        · subst h1; subst h2
          exact Or.inl (Or.inr (List.mem_map.2 ⟨t, mem_pySetDiff.2 ⟨h3, h4⟩, rfl⟩))
        · exact Or.inr hr
    by_cases hcc : c₀ = c
    · subst hcc
      have hnot_rem : ¬ ((c₀, Action.removed, t) ∈ compare_teachers old_l tl) :=
        fun h => hc₀ (mem_compare_imp_key h)
      have hnot_add : ¬ ((c₀, Action.added, t) ∈ compare_teachers old_l tl) :=
        fun h => hc₀ (mem_compare_imp_key h)
      have hkey : c₀ ∈ ((c₀, ts₀) :: tl).map Prod.fst := by simp
      constructor
      · rw [hsplit Action.removed, dictGetD_cons, if_pos rfl]
        constructor
        · rintro (⟨_, _, h3, h4⟩ | ⟨_, hact, _, _⟩ | hr)
          · exact ⟨hkey, h3, h4⟩
          · cases hact
          · exact absurd hr hnot_rem
        · rintro ⟨_, h3, h4⟩
          exact Or.inl ⟨rfl, rfl, h3, h4⟩
      · rw [hsplit Action.added, dictGetD_cons, if_pos rfl]
        constructor
        · rintro (⟨_, hact, _, _⟩ | ⟨_, _, h3, h4⟩ | hr)
          · cases hact
          · exact ⟨h3, h4⟩
          · exact absurd hr hnot_add
        · rintro ⟨h3, h4⟩
          exact Or.inr (Or.inl ⟨rfl, rfl, h3, h4⟩)
    · have hkey_iff : (c ∈ ((c₀, ts₀) :: tl).map Prod.fst) ↔ c ∈ tl.map Prod.fst := by
        simp only [List.map_cons, List.mem_cons]
        constructor
        · rintro (h | h)
          · exact absurd h.symm hcc
          · exact h
        · exact Or.inr
      constructor
      · rw [hsplit Action.removed, dictGetD_cons, if_neg hcc, hkey_iff]
        constructor
        · rintro (⟨h1, _⟩ | ⟨h1, _⟩ | hr)
          · exact absurd h1 hcc
          · exact absurd h1 hcc
          · exact IH.1.1 hr
        · intro h
          exact Or.inr (Or.inr (IH.1.2 h))
      · rw [hsplit Action.added, dictGetD_cons, if_neg hcc]
        constructor
        · rintro (⟨h1, _⟩ | ⟨h1, _⟩ | hr)
          · exact absurd h1 hcc
          · exact absurd h1 hcc
          · exact IH.2.1 hr
        · intro h
          exact Or.inr (Or.inr (IH.2.2 h))

/-- **C1 (counterexample).** The claimed iff fails for a course dropped from
the new snapshot: with `old = [("A", ["x"])]` and `new = []`, the teacher
`"x"` is a member of `old["A"]` and not a member of `new["A"]`, yet the diff
contains no `removed` record for `("A", "x")` (it is empty). -/
theorem compare_teachers_removed_iff_cex :
    "x" ∈ dictGetD [("A", ["x"])] "A" ∧ "x" ∉ dictGetD ([] : Teachers) "A" ∧
    ("A", Action.removed, "x") ∉ compare_teachers [("A", ["x"])] ([] : Teachers) ∧
    compare_teachers [("A", ["x"])] ([] : Teachers) = [] := by
  refine ⟨by decide, by decide, ?_, rfl⟩
  intro h
  cases h

/-- **C1 (amended).** For snapshots with distinct course keys, the diff
contains a `removed` record for `(c, t)` iff `c` is a course of the new
snapshot, `t ∈ old[c]` and `t ∉ new[c]`; an `added` record for `(c, t)` iff
`t ∈ new[c]` and `t ∉ old[c]`; and it contains no records other than these
(the two iffs cover both possible actions of a record). -/
theorem compare_teachers_records_iff (old_l new_l : Teachers)
    (hnew : (new_l.map Prod.fst).Nodup) (c t : String) :
    (((c, Action.removed, t) ∈ compare_teachers old_l new_l) ↔
      (c ∈ new_l.map Prod.fst ∧ t ∈ dictGetD old_l c ∧ t ∉ dictGetD new_l c)) ∧
    (((c, Action.added, t) ∈ compare_teachers old_l new_l) ↔
      (t ∈ dictGetD new_l c ∧ t ∉ dictGetD old_l c)) :=
  compare_mem_iff old_l new_l hnew c t

/-- Witness for the amended C1 at a concrete input. -/
theorem compare_teachers_records_iff_witness :
    ((("CS101", Action.removed, "Alice") ∈
        compare_teachers [("CS101", ["Alice", "Bob"])] [("CS101", ["Bob", "Carol"])]) ↔
      ("CS101" ∈ [("CS101", ["Bob", "Carol"])].map Prod.fst ∧
        "Alice" ∈ dictGetD [("CS101", ["Alice", "Bob"])] "CS101" ∧
        "Alice" ∉ dictGetD [("CS101", ["Bob", "Carol"])] "CS101")) ∧
    ((("CS101", Action.added, "Alice") ∈
        compare_teachers [("CS101", ["Alice", "Bob"])] [("CS101", ["Bob", "Carol"])]) ↔
      ("Alice" ∈ dictGetD [("CS101", ["Bob", "Carol"])] "CS101" ∧
        "Alice" ∉ dictGetD [("CS101", ["Alice", "Bob"])] "CS101")) :=
  compare_teachers_records_iff [("CS101", ["Alice", "Bob"])]
    [("CS101", ["Bob", "Carol"])] (by decide) "CS101" "Alice"

/-- **C8.** For snapshots with distinct course keys, the subsequence of diff
records for any course `c` splits as a block of `removed` records followed by
a block of `added` records: within a course, every removal precedes every
addition. -/
theorem compare_teachers_removed_before_added (old_l : Teachers) :
    ∀ new_l : Teachers, (new_l.map Prod.fst).Nodup → ∀ c : String,
      ∃ r a : List ChangeRecord,
        (compare_teachers old_l new_l).filter (fun x => x.1 = c) = r ++ a ∧
        (∀ x ∈ r, x.2.1 = Action.removed) ∧ (∀ x ∈ a, x.2.1 = Action.added) := by
  intro new_l
  induction new_l with
  | nil =>
    intro _ c
    exact ⟨[], [], rfl, by simp, by simp⟩
  | cons hd tl ih =>
    intro hnodup c
    obtain ⟨c₀, ts₀⟩ := hd
    rw [List.map_cons, List.nodup_cons] at hnodup
    obtain ⟨hc₀, htl⟩ := hnodup
    have hrest_nil_or : ∀ x ∈ compare_teachers old_l tl, x.1 ∈ tl.map Prod.fst := by
      rintro ⟨c', a', t'⟩ hx
      exact mem_compare_imp_key hx
    rw [show compare_teachers old_l ((c₀, ts₀) :: tl) =
        ((pySetDiff (dictGetD old_l c₀) ts₀).map (fun t => (c₀, Action.removed, t)) ++
         (pySetDiff ts₀ (dictGetD old_l c₀)).map (fun t => (c₀, Action.added, t))) ++
        compare_teachers old_l tl from by
      simp [compare_teachers, List.flatMap_cons]]
    rw [List.filter_append, List.filter_append]
    by_cases hcc : c₀ = c
    · subst hcc
      have hfr : ((pySetDiff (dictGetD old_l c₀) ts₀).map
          (fun t => (c₀, Action.removed, t))).filter (fun x => x.1 = c₀) =
          (pySetDiff (dictGetD old_l c₀) ts₀).map (fun t => (c₀, Action.removed, t)) := by
        rw [List.filter_eq_self]
        rintro ⟨c', a', t'⟩ hx
        obtain ⟨x, _, hx2⟩ := List.mem_map.1 hx
        injection hx2 with h1 h2
        simp [h1]
      have hfa : ((pySetDiff ts₀ (dictGetD old_l c₀)).map
          (fun t => (c₀, Action.added, t))).filter (fun x => x.1 = c₀) =
          (pySetDiff ts₀ (dictGetD old_l c₀)).map (fun t => (c₀, Action.added, t)) := by
        rw [List.filter_eq_self]
        rintro ⟨c', a', t'⟩ hx
        obtain ⟨x, _, hx2⟩ := List.mem_map.1 hx
        injection hx2 with h1 h2
        simp [h1]
      have hfrest : (compare_teachers old_l tl).filter (fun x => x.1 = c₀) = [] := by
        rw [List.filter_eq_nil_iff]
        rintro ⟨c', a', t'⟩ hx
        have := mem_compare_imp_key hx
        simp only [decide_eq_true_eq]
        intro hceq
        exact hc₀ (hceq ▸ this)
      refine ⟨(pySetDiff (dictGetD old_l c₀) ts₀).map (fun t => (c₀, Action.removed, t)),
        (pySetDiff ts₀ (dictGetD old_l c₀)).map (fun t => (c₀, Action.added, t)),
        by rw [hfr, hfa, hfrest, List.append_nil], ?_, ?_⟩
      · rintro ⟨c', a', t'⟩ hx
        obtain ⟨x, _, hx2⟩ := List.mem_map.1 hx
        injection hx2 with h1 h2
        injection h2 with h2 h3
        simp [← h2]
      · rintro ⟨c', a', t'⟩ hx
        obtain ⟨x, _, hx2⟩ := List.mem_map.1 hx
        injection hx2 with h1 h2
        injection h2 with h2 h3
        simp [← h2]
    · have hfr : ((pySetDiff (dictGetD old_l c₀) ts₀).map
          (fun t => (c₀, Action.removed, t))).filter (fun x => x.1 = c) = [] := by
        rw [List.filter_eq_nil_iff]
        rintro ⟨c', a', t'⟩ hx
        obtain ⟨x, _, hx2⟩ := List.mem_map.1 hx
        injection hx2 with h1 h2
        simp only [decide_eq_true_eq]
        intro hceq
        exact hcc (h1 ▸ hceq)
      have hfa : ((pySetDiff ts₀ (dictGetD old_l c₀)).map
          (fun t => (c₀, Action.added, t))).filter (fun x => x.1 = c) = [] := by
        rw [List.filter_eq_nil_iff]
        rintro ⟨c', a', t'⟩ hx
        obtain ⟨x, _, hx2⟩ := List.mem_map.1 hx
        injection hx2 with h1 h2
        simp only [decide_eq_true_eq]
        intro hceq
        exact hcc (h1 ▸ hceq)
      obtain ⟨r, a, heq, hr, ha⟩ := ih htl c
      exact ⟨r, a, by rw [hfr, hfa, heq]; rfl, hr, ha⟩

/-- Witness for C8 at a concrete input with both a removal and an addition
on the same course. -/
theorem compare_teachers_removed_before_added_witness :
    ∃ r a : List ChangeRecord,
      (compare_teachers [("CS101", ["Alice", "Bob"])]
        [("CS101", ["Bob", "Carol"])]).filter (fun x => x.1 = "CS101") = r ++ a ∧
      (∀ x ∈ r, x.2.1 = Action.removed) ∧ (∀ x ∈ a, x.2.1 = Action.added) :=
  compare_teachers_removed_before_added [("CS101", ["Alice", "Bob"])]
    [("CS101", ["Bob", "Carol"])] (by decide) "CS101"

/-! ### Link-header parsing (C5) -/

/-- One well-formed Link-header entry `<url>; rel="relation"`. -/
def entryChars (url rel : List Char) : List Char :=
  '<' :: url ++ '>' :: ';' :: ' ' :: 'r' :: 'e' :: 'l' :: '=' :: '\"' :: rel ++ ['\"']

/-- Comma-join of the entries, as the upstream server produces the header. -/
def joinComma : List (List Char) → List Char
  | [] => []
  | [e] => e
  | e :: es => e ++ ',' :: joinComma es

/-- The header built from structured entries. -/
def mkHeaderChars (es : List (List Char × List Char)) : List Char :=
  joinComma (es.map (fun e => entryChars e.1 e.2))

/-- A URL that does not disturb the header syntax: no separator, delimiter or
quote characters. -/
def wfUrl (u : List Char) : Prop :=
  ∀ ch ∈ u, ch ≠ ',' ∧ ch ≠ ';' ∧ ch ≠ '<' ∧ ch ≠ '>' ∧ ch ≠ '\"'

/-- A relation name that does not disturb the header syntax. -/
def wfRel (r : List Char) : Prop := ∀ ch ∈ r, ch ≠ ',' ∧ ch ≠ '\"'

/-- The relation `next`. -/
def nextChars : List Char := ['n', 'e', 'x', 't']

instance : DecidablePred wfUrl := fun u => by unfold wfUrl; infer_instance

instance : DecidablePred wfRel := fun r => by unfold wfRel; infer_instance

/-- `isPrefixOf` as an existential. -/
lemma isPrefixOf_iff_exists : ∀ p s : List Char, p.isPrefixOf s = true ↔ ∃ y, p ++ y = s := by
  intro p
  induction p with
  | nil => intro s; simp [List.isPrefixOf]
  | cons a p' ih =>
    intro s
    cases s with
    | nil => simp [List.isPrefixOf]
    | cons b s' =>
      simp only [List.isPrefixOf, Bool.and_eq_true, beq_iff_eq, ih s']
      constructor
      · rintro ⟨rfl, y, rfl⟩
        exact ⟨y, rfl⟩
      · rintro ⟨y, hy⟩
        injection hy with h1 h2
        exact ⟨h1, y, h2⟩

/-- Python substring containment as an existential. -/
lemma containsSub_iff : ∀ s pat : List Char, containsSub s pat = true ↔ ∃ x y, x ++ pat ++ y = s := by
  intro s
  induction s with
  | nil =>
    intro pat
    simp only [containsSub, List.isEmpty_iff]
    constructor
    · rintro rfl
      exact ⟨[], [], rfl⟩
    · rintro ⟨x, y, hxy⟩
      rcases x with _ | ⟨c, x'⟩
      · rcases pat with _ | ⟨c, p'⟩
        · rfl
        · cases hxy
      · cases hxy
  | cons c rest ih =>
    intro pat
    simp only [containsSub, Bool.or_eq_true, isPrefixOf_iff_exists, ih]
    constructor
    · rintro (⟨y, hy⟩ | ⟨x, y, hxy⟩)
      · exact ⟨[], y, hy⟩
      · exact ⟨c :: x, y, by rw [← hxy]; rfl⟩
    · rintro ⟨x, y, hxy⟩
      rcases x with _ | ⟨c', x'⟩
      · exact Or.inl ⟨y, hxy⟩
      · injection hxy with h1 h2
        exact Or.inr ⟨x', y, h2⟩

/-- `split` leaves a separator-free string whole. -/
lemma pySplit_sepFree (sep : Char) : ∀ l : List Char, (∀ ch ∈ l, ch ≠ sep) →
    pySplit sep l = [l] := by
  intro l
  induction l with
  | nil => intro _; rfl
  | cons c cs ih =>
    intro h
    have hc : ¬ (c = sep) := h c (List.mem_cons_self c cs)
    have hcs := ih (fun ch hch => h ch (List.mem_cons_of_mem c hch))
    simp [pySplit, hc, hcs]

/-- `split` peels off a separator-free first group. -/
lemma pySplit_append (sep : Char) : ∀ (a rest : List Char), (∀ ch ∈ a, ch ≠ sep) →
    pySplit sep (a ++ sep :: rest) = a :: pySplit sep rest := by
  intro a
  induction a with
  | nil => intro rest _; simp [pySplit]
  | cons c cs ih =>
    intro rest h
    have hc : ¬ (c = sep) := h c (List.mem_cons_self c cs)
    have hcs := ih rest (fun ch hch => h ch (List.mem_cons_of_mem c hch))
    simp [pySplit, hc, hcs]

/-- Splitting a comma-join of comma-free groups recovers the groups. -/
lemma pySplit_joinComma : ∀ es : List (List Char), es ≠ [] →
    (∀ e ∈ es, ∀ ch ∈ e, ch ≠ ',') → pySplit ',' (joinComma es) = es := by
  intro es
  induction es with
  | nil => intro h; cases h rfl
  | cons e es' ih =>
    intro _ h
    cases es' with
    | nil =>
      exact pySplit_sepFree ',' e (h e (List.mem_cons_self e []))
    | cons e' es'' =>
      have h1 : joinComma (e :: e' :: es'') = e ++ ',' :: joinComma (e' :: es'') := rfl
      rw [h1, pySplit_append ',' e _ (h e (List.mem_cons_self e _)),
        ih (by simp) (fun g hg => h g (List.mem_cons_of_mem e hg))]

/-- Unique decomposition of a list at a quote whose left part is
quote-free. -/
lemma quote_free_split : ∀ (u1 r1 u2 r2 : List Char),
    (∀ ch ∈ u1, ch ≠ '\"') → (∀ ch ∈ u2, ch ≠ '\"') →
    u1 ++ '\"' :: r1 = u2 ++ '\"' :: r2 → u1 = u2 ∧ r1 = r2 := by
  intro u1
  induction u1 with
  | nil =>
    intro r1 u2 r2 _ h2 heq
    cases u2 with
    | nil =>
      injection heq with _ h
      exact ⟨rfl, h⟩
    | cons c u2' =>
      injection heq with h _
      exact absurd h.symm (h2 c (List.mem_cons_self c u2'))
  | cons c1 u1' ih =>
    intro r1 u2 r2 h1 h2 heq
    cases u2 with
    | nil =>
      injection heq with h _
      exact absurd h (h1 c1 (List.mem_cons_self c1 u1'))
    | cons c2 u2' =>
      injection heq with hc htail
      obtain ⟨ha, hb⟩ := ih r1 u2' r2 (fun ch hch => h1 ch (List.mem_cons_of_mem c1 hch))
        (fun ch hch => h2 ch (List.mem_cons_of_mem c2 hch)) htail
      exact ⟨by rw [hc, ha], hb⟩

/-- An entry contains the substring `rel="next"` exactly when its relation is
`next`, provided URL and relation are quote-free. -/
lemma containsSub_entry (url rel : List Char)
    (hu : ∀ ch ∈ url, ch ≠ '\"') (hr : ∀ ch ∈ rel, ch ≠ '\"') :
    containsSub (entryChars url rel) relNextPat = true ↔ rel = nextChars := by
  rw [containsSub_iff]
  constructor
  · rintro ⟨x, y, heq⟩
    have hcu : List.count '\"' url = 0 := List.count_eq_zero.2 (fun h => (hu '\"' h) rfl)
    have hcr : List.count '\"' rel = 0 := List.count_eq_zero.2 (fun h => (hr '\"' h) rfl)
    have hcnt := congrArg (List.count '\"') heq
    rw [show entryChars url rel =
        ['<'] ++ url ++ (['>', ';', ' ', 'r', 'e', 'l', '='] ++ (['\"'] ++ (rel ++ ['\"']))) from
      by simp [entryChars]] at hcnt
    simp only [List.count_append] at hcnt
    have e1 : List.count '\"' (['<'] : List Char) = 0 := by decide
    have e2 : List.count '\"' (['>', ';', ' ', 'r', 'e', 'l', '='] : List Char) = 0 := by decide
    have e3 : List.count '\"' (['\"'] : List Char) = 1 := by decide
    have e4 : List.count '\"' relNextPat = 2 := by decide
    have hx0 : List.count '\"' x = 0 := by omega
    have hy0 : List.count '\"' y = 0 := by omega
    have hxq : ∀ ch ∈ x, ch ≠ '\"' := by
      intro ch hch hcq
      exact absurd hch (by rw [hcq]; exact List.count_eq_zero.1 hx0)
    have heq2 : (x ++ ['r', 'e', 'l', '=']) ++ '\"' :: (nextChars ++ '\"' :: y) =
        ('<' :: url ++ ['>', ';', ' ', 'r', 'e', 'l', '=']) ++ '\"' :: (rel ++ ['\"']) := by
      simpa [entryChars, relNextPat, nextChars] using heq
    have hleft : ∀ ch ∈ x ++ (['r', 'e', 'l', '='] : List Char), ch ≠ '\"' := by
      intro ch hch
      rcases List.mem_append.1 hch with h | h
      · exact hxq ch h
      · intro hcq
        rw [hcq] at h
        exact absurd h (by decide)
    have hright : ∀ ch ∈ '<' :: url ++ (['>', ';', ' ', 'r', 'e', 'l', '='] : List Char),
        ch ≠ '\"' := by
      intro ch hch
      rcases List.mem_cons.1 hch with h | h
      · rw [h]; decide
      · rcases List.mem_append.1 h with h | h
        · exact hu ch h
        · intro hcq
          rw [hcq] at h
          exact absurd h (by decide)
    obtain ⟨_, hmid⟩ := quote_free_split _ _ _ _ hleft hright heq2
    have hnq : ∀ ch ∈ nextChars, ch ≠ '\"' := by decide
    obtain ⟨hrel, _⟩ := quote_free_split nextChars ('\"' :: y).tail rel [] hnq hr
      (by simpa using hmid)
    exact hrel.symm
  · rintro rfl
    exact ⟨'<' :: url ++ ['>', ';', ' '], [], by simp [entryChars, relNextPat, nextChars]⟩

/-- `takeWhile` up to the first semicolon of a semicolon-free part. -/
lemma takeWhile_semi_free : ∀ (u rest : List Char), (∀ ch ∈ u, ch ≠ ';') →
    (u ++ ';' :: rest).takeWhile (fun c => !(c = ';')) = u := by
  intro u
  induction u with
  | nil => intro rest _; simp [List.takeWhile_cons]
  | cons c cs ih =>
    intro rest h
    have hc : ¬ (c = ';') := h c (List.mem_cons_self c cs)
    have hcs := ih rest (fun ch hch => h ch (List.mem_cons_of_mem c hch))
    simp only [List.cons_append, List.takeWhile_cons, hc]
    simp [hcs]

/-- `dropWhile` does nothing when the head (if any) fails the test. -/
lemma dropWhile_eq_self_of_head (p : Char → Bool) (l : List Char)
    (h : ∀ c cs, l = c :: cs → p c = false) : l.dropWhile p = l := by
  cases l with
  | nil => rfl
  | cons c cs => simp [List.dropWhile_cons, h c cs rfl]

/-- Stripping `<>` from `<url>` recovers the URL for a delimiter-free URL. -/
lemma pyStrip_angle (url : List Char)
    (h : ∀ ch ∈ url, ch ≠ '<' ∧ ch ≠ '>') :
    pyStrip ['<', '>'] ('<' :: url ++ ['>']) = url := by
  have hbad : ∀ ch ∈ url, ((['<', '>'] : List Char).contains ch) = false := by
    intro ch hch
    simp [(h ch hch).1, (h ch hch).2]
  unfold pyStrip
  have h1 : (('<' :: url ++ ['>']).dropWhile (fun c => (['<', '>'] : List Char).contains c)) =
      (url ++ ['>']).dropWhile (fun c => (['<', '>'] : List Char).contains c) := by
    simp [List.dropWhile_cons]
  rw [h1]
  cases url with
  | nil => rfl
  | cons c cs =>
    have hinner : (c :: cs ++ ['>']).dropWhile
        (fun ch => (['<', '>'] : List Char).contains ch) = c :: cs ++ ['>'] :=
      dropWhile_eq_self_of_head _ _ (by
        rintro d ds hd
        injection hd with hd1 _
        exact hbad d (hd1 ▸ List.mem_cons_self c cs))
    have h2 : ((c :: cs) ++ ['>']).reverse = '>' :: (c :: cs).reverse := by
      simp
    have h3 : ('>' :: (c :: cs).reverse).dropWhile
        (fun ch => (['<', '>'] : List Char).contains ch) =
        ((c :: cs).reverse).dropWhile
          (fun ch => (['<', '>'] : List Char).contains ch) := by
      simp [List.dropWhile_cons]
    have houter : ((c :: cs).reverse).dropWhile
        (fun ch => (['<', '>'] : List Char).contains ch) = (c :: cs).reverse :=
      dropWhile_eq_self_of_head _ _ (by
        rintro d ds hd
        have hmem : d ∈ (c :: cs).reverse := hd ▸ List.mem_cons_self d ds
        exact hbad d (List.mem_reverse.1 hmem))
    rw [hinner, h2, h3, houter, List.reverse_reverse]

/-- URL extraction on a well-formed entry returns exactly its URL. -/
lemma extractUrl_entry (url rel : List Char) (hu : wfUrl url) :
    extractUrl (entryChars url rel) = url := by
  have h1 : entryChars url rel = ('<' :: url ++ ['>']) ++ ';' ::
      (' ' :: 'r' :: 'e' :: 'l' :: '=' :: '\"' :: rel ++ ['\"']) := by
    simp [entryChars]
  unfold extractUrl
  rw [h1, takeWhile_semi_free ('<' :: url ++ ['>']) _ (by
    intro ch hch
    rcases List.mem_cons.1 hch with h | h
    · rw [h]; decide
    · rcases List.mem_append.1 h with h | h
      · exact (hu ch h).2.1
      · intro hcq
        rw [hcq] at h
        exact absurd h (by decide))]
  exact pyStrip_angle url (fun ch hch => ⟨(hu ch hch).2.2.1, (hu ch hch).2.2.2.1⟩)

/-- No character of a well-formed entry is a comma. -/
lemma entryChars_comma_free (url rel : List Char) (hu : wfUrl url) (hr : wfRel rel) :
    ∀ ch ∈ entryChars url rel, ch ≠ ',' := by
  intro ch hch
  have h1 : entryChars url rel = ['<'] ++ url ++
      (['>', ';', ' ', 'r', 'e', 'l', '=', '\"'] ++ (rel ++ ['\"'])) := by
    simp [entryChars]
  rw [h1] at hch
  rcases List.mem_append.1 hch with h | h
  · rcases List.mem_append.1 h with h | h
    · intro hcq
      rw [hcq] at h
      exact absurd h (by decide)
    · exact (hu ch h).1
  · rcases List.mem_append.1 h with h | h
    · intro hcq
      rw [hcq] at h
      exact absurd h (by decide)
    · rcases List.mem_append.1 h with h | h
      · exact (hr ch h).1
      · intro hcq
        rw [hcq] at h
        exact absurd h (by decide)

/-- The header-entry scan returns the URL of the first entry whose relation
is `next`. -/
lemma findNextLink_entries : ∀ es : List (List Char × List Char),
    (∀ e ∈ es, wfUrl e.1 ∧ wfRel e.2) →
    findNextLink (es.map (fun e => entryChars e.1 e.2)) =
      (es.find? (fun e => e.2 = nextChars)).map (fun e => e.1) := by
  intro es
  induction es with
  | nil => intro _; rfl
  | cons e es' ih =>
    intro hwf
    obtain ⟨hu, hr⟩ := hwf e (List.mem_cons_self e es')
    have hquote_u : ∀ ch ∈ e.1, ch ≠ '\"' := fun ch hch => (hu ch hch).2.2.2.2
    have hquote_r : ∀ ch ∈ e.2, ch ≠ '\"' := fun ch hch => (hr ch hch).2
    have hiff := containsSub_entry e.1 e.2 hquote_u hquote_r
    by_cases hrel : e.2 = nextChars
    · have hc : containsSub (entryChars e.1 e.2) relNextPat = true := hiff.2 hrel
      simp only [findNextLink, List.map_cons, List.find?_cons, hc]
      have hp : (decide (e.2 = nextChars)) = true := decide_eq_true hrel
      simp [hp, extractUrl_entry e.1 e.2 hu]
    · have hc : containsSub (entryChars e.1 e.2) relNextPat = false := by
        rcases hb : containsSub (entryChars e.1 e.2) relNextPat with _ | _
        · rfl
        · exact absurd (hiff.1 hb) hrel
      have hp : (decide (e.2 = nextChars)) = false := decide_eq_false hrel
      have hrec := ih (fun g hg => hwf g (List.mem_cons_of_mem e hg))
      simp only [findNextLink, List.map_cons, List.find?_cons, hc, hp] at hrec ⊢
      exact hrec

/-- A well-formed entry is never the empty string. -/
lemma entryChars_ne_nil (url rel : List Char) : entryChars url rel ≠ [] := by
  simp [entryChars]

/-- The comma-join of a nonempty list of entries is nonempty. -/
lemma mkHeaderChars_cons_ne_nil (e : List Char × List Char)
    (es : List (List Char × List Char)) : mkHeaderChars (e :: es) ≠ [] := by
  unfold mkHeaderChars
  cases es with
  | nil => simp [joinComma, entryChars]
  | cons e' es' => simp [joinComma, entryChars]

/-- Char-level version of the parsing result. -/
lemma get_next_link_chars_parses (es : List (List Char × List Char))
    (hwf : ∀ e ∈ es, wfUrl e.1 ∧ wfRel e.2) :
    get_next_link_chars (some (mkHeaderChars es)) =
      (es.find? (fun e => e.2 = nextChars)).map (fun e => e.1) := by
  cases es with
  | nil => rfl
  | cons e es' =>
    have hne := mkHeaderChars_cons_ne_nil e es'
    have hsplit : pySplit ',' (mkHeaderChars (e :: es')) =
        (e :: es').map (fun g => entryChars g.1 g.2) :=
      pySplit_joinComma _ (by simp) (by
        intro g hg
        obtain ⟨p, hp, hpe⟩ := List.mem_map.1 hg
        exact hpe ▸ entryChars_comma_free p.1 p.2 (hwf p hp).1 (hwf p hp).2)
    simp only [get_next_link_chars, if_neg hne, hsplit]
    exact findNextLink_entries (e :: es') hwf

/-- **C5.** For a Link header consisting of comma-separated entries
`<url>; rel="relation"` (URLs and relations free of the delimiter
characters), `get_next_link` returns the URL — angle brackets stripped — of
exactly the first entry whose relation is `next`; it returns `none` when no
entry's relation is `next` (the `find?` on the right misses) and when the
header is absent, and entries with other relations are skipped without
error. -/
theorem get_next_link_parses_header (es : List (List Char × List Char))
    (hwf : ∀ e ∈ es, wfUrl e.1 ∧ wfRel e.2) :
    get_next_link (some ⟨mkHeaderChars es⟩) =
      (es.find? (fun e => e.2 = nextChars)).map (fun e => (⟨e.1⟩ : String)) ∧
    get_next_link none = none := by
  refine ⟨?_, rfl⟩
  show (get_next_link_chars (some (mkHeaderChars es))).map (fun cs => (⟨cs⟩ : String)) = _
  rw [get_next_link_chars_parses es hwf, Option.map_map]
  rfl

/-- Witness for C5: a two-entry header whose second entry carries
`rel="next"`; the parser picks the second URL, skipping the `current`
entry. -/
theorem get_next_link_parses_header_witness :
    get_next_link (some ⟨mkHeaderChars
      [(['u', '1'], ['c', 'u', 'r', 'r', 'e', 'n', 't']), (['u', '2'], nextChars)]⟩) =
      (([(['u', '1'], ['c', 'u', 'r', 'r', 'e', 'n', 't']),
         (['u', '2'], nextChars)] : List (List Char × List Char)).find?
        (fun e => e.2 = nextChars)).map (fun e => (⟨e.1⟩ : String)) ∧
    get_next_link none = none :=
  get_next_link_parses_header
    [(['u', '1'], ['c', 'u', 'r', 'r', 'e', 'n', 't']), (['u', '2'], nextChars)]
    (by decide)

end TeacherChanges
